import Mathlib

/-!
Verification development for the `python-pandas-mongodb-helper` repository.

The repository is a thin wrapper (`src/mongodb_helper.py`) around a MongoDB
client.  The central operation is `MongoDBHelper.upsert_df`, which converts a
pandas DataFrame to a list of records and issues one
`UpdateOne(filter={pk: doc[pk]}, update={'$set': doc}, upsert=True)` per record
through a single `bulk_write` call.

Shallow embedding used here:
* a BSON scalar value is `Value` (integers and strings, the types exercised by
  the repository's example);
* a document / record is an association list `Doc := List (String × Value)`
  in insertion order, mirroring a Python dict (first binding wins on lookup,
  `$set` of an existing field replaces it in place, a new field is appended) —
  dicts produced by `DataFrame.to_dict('records')` have pairwise-distinct
  field names, which proofs take as a hypothesis where needed;
* a collection is a `List Doc` in insertion order; MongoDB's `UpdateOne`
  rewrites the first matching document in place, and an upsert appends the new
  document (built from the equality filter plus the `$set` fields).  The
  model omits the driver-generated `_id` of inserted documents: the
  repository's example uses `_id` itself as the primary-key column, in which
  case no extra field is generated.
-/

namespace PandasMongo

/-- A BSON scalar value, covering the types used by the repository. -/
inductive Value where
  | int (n : Int)
  | str (s : String)
deriving DecidableEq, Repr

/-- A document (or a DataFrame record): field bindings in insertion order,
mirroring a Python dict. -/
abbrev Doc := List (String × Value)

/-- Field lookup in a document: the first binding of the field, as in a dict. -/
def dget : Doc → String → Option Value
  | [], _ => none
  | (k, v) :: t, f => if k = f then some v else dget t f

/-- MongoDB `$set` of one field: replace the first binding in place if the
field is present, otherwise append the new binding, as a dict assignment
does. -/
def dset : Doc → String → Value → Doc
  | [], k, v => [(k, v)]
  | (k', v') :: t, k, v => if k' = k then (k, v) :: t else (k', v') :: dset t k v

/-- MongoDB `$set` with document `r`: set each field of `r` in order on `d`.
This is the effect of `update={'$set': doc}` on a matched document `d`. -/
def dsetMany (d r : Doc) : Doc :=
  r.foldl (fun d kv => dset d kv.1 kv.2) d

/-- The field names of a document, in order. -/
def dkeys (d : Doc) : List String :=
  d.map Prod.fst

/-- The value of the last binding of a field, if any: the value a `$set` with
this document leaves in the field. -/
def lastVal : Doc → String → Option Value
  | [], _ => none
  | (k, v) :: t, f =>
    match lastVal t f with
    | some v' => some v'
    | none => if k = f then some v else none

@[simp] theorem dget_nil (f : String) : dget [] f = none := rfl

theorem dget_cons (k : String) (v : Value) (t : Doc) (f : String) :
    dget ((k, v) :: t) f = if k = f then some v else dget t f := rfl

@[simp] theorem dsetMany_nil (d : Doc) : dsetMany d [] = d := rfl

theorem dsetMany_cons (d : Doc) (k : String) (v : Value) (t : Doc) :
    dsetMany d ((k, v) :: t) = dsetMany (dset d k v) t := rfl

theorem dsetMany_append (d : Doc) (r₁ r₂ : Doc) :
    dsetMany d (r₁ ++ r₂) = dsetMany (dsetMany d r₁) r₂ :=
  List.foldl_append _ _ _ _

/-- Lookup after a single `$set`. -/
theorem dget_dset (d : Doc) (k : String) (v : Value) (f : String) :
    dget (dset d k v) f = if k = f then some v else dget d f := by
  induction d with
  | nil => simp [dset, dget]
  | cons hd t ih =>
    obtain ⟨k', v'⟩ := hd
    by_cases hk : k' = k
    · subst hk
      by_cases hf : k' = f
      · simp [dset, dget, hf]
      · simp [dset, dget, hf]
    · simp only [dset, if_neg hk]
      by_cases hf : k' = f
      · subst hf
        have : ¬ k = k' := fun h => hk h.symm
        simp [dget, this]
      · simp [dget, hf, ih]

/-- Setting a field to the value it already has (at its first binding) leaves
the document unchanged. -/
theorem dset_eq_self (d : Doc) (k : String) (v : Value) (h : dget d k = some v) :
    dset d k v = d := by
  induction d with
  | nil => simp [dget] at h
  | cons hd t ih =>
    obtain ⟨k', v'⟩ := hd
    by_cases hk : k' = k
    · subst hk
      have hv : v' = v := by simpa [dget] using h
      subst hv
      simp [dset]
    · simp only [dget, if_neg hk] at h
      simp [dset, hk, ih h]

/-- Keys after a single `$set`: unchanged for a present field, appended for a
new field. -/
theorem dkeys_dset (d : Doc) (k : String) (v : Value) :
    dkeys (dset d k v) = if k ∈ dkeys d then dkeys d else dkeys d ++ [k] := by
  induction d with
  | nil => simp [dset, dkeys]
  | cons hd t ih =>
    obtain ⟨k', v'⟩ := hd
    by_cases hk : k' = k
    · subst hk
      simp [dset, dkeys]
    · have hk' : ¬ k = k' := fun h => hk h.symm
      simp only [dset, if_neg hk, dkeys, List.map_cons, List.mem_cons]
      simp only [dkeys] at ih
      by_cases hm : k ∈ t.map Prod.fst
      · simp [hm, hk', ih]
      · simp [hm, hk', ih]

/-- A field is a key of a document iff lookup succeeds. -/
theorem mem_dkeys_iff_dget (d : Doc) (f : String) :
    f ∈ dkeys d ↔ (dget d f).isSome := by
  induction d with
  | nil => simp [dkeys, dget]
  | cons hd t ih =>
    obtain ⟨k, v⟩ := hd
    by_cases hk : k = f
    · subst hk
      simp [dkeys, dget]
    · have hk' : ¬ f = k := fun h => hk h.symm
      simp only [dkeys, List.map_cons, List.mem_cons, dget, if_neg hk]
      simp only [dkeys] at ih
      simp [hk', ih]

/-- A field is a key of a document iff its last binding exists. -/
theorem mem_dkeys_iff_lastVal (d : Doc) (f : String) :
    f ∈ dkeys d ↔ (lastVal d f).isSome := by
  induction d with
  | nil => simp [dkeys, lastVal]
  | cons hd t ih =>
    obtain ⟨k, v⟩ := hd
    simp only [dkeys, List.map_cons, List.mem_cons, lastVal]
    simp only [dkeys] at ih
    cases h : lastVal t f with
    | some v' =>
      simp only [h] at ih
      simp [ih]
    | none =>
      simp only [h] at ih
      by_cases hk : k = f
      · subst hk
        simp [ih]
      · have hk' : ¬ f = k := fun hh => hk hh.symm
        simp [ih, hk, hk']

/-- The last binding over an append comes from the right part when present. -/
theorem lastVal_append (r₁ r₂ : Doc) (f : String) :
    lastVal (r₁ ++ r₂) f =
      match lastVal r₂ f with
      | some v => some v
      | none => lastVal r₁ f := by
  induction r₁ with
  | nil =>
    cases h : lastVal r₂ f <;> simp [lastVal, h]
  | cons hd t ih =>
    obtain ⟨k, v⟩ := hd
    simp only [List.cons_append, lastVal, List.append_eq]
    rw [ih]
    cases h : lastVal r₂ f <;> cases h' : lastVal t f <;> simp

/-- Lookup after `$set` with a whole document: the last binding in the update
wins, otherwise the original value remains. -/
theorem dget_dsetMany (d r : Doc) (f : String) :
    dget (dsetMany d r) f =
      match lastVal r f with
      | some v => some v
      | none => dget d f := by
  induction r generalizing d with
  | nil => simp [lastVal]
  | cons hd t ih =>
    obtain ⟨k, v⟩ := hd
    rw [dsetMany_cons, ih, dget_dset]
    simp only [lastVal]
    cases h : lastVal t f with
    | some v' => simp
    | none =>
      by_cases hk : k = f <;> simp [hk]

/-- In a document with pairwise-distinct field names the last binding is the
first binding. -/
theorem lastVal_eq_dget (r : Doc) (h : (dkeys r).Nodup) (f : String) :
    lastVal r f = dget r f := by
  induction r with
  | nil => rfl
  | cons hd t ih =>
    obtain ⟨k, v⟩ := hd
    simp only [dkeys, List.map_cons, List.nodup_cons] at h
    simp only [lastVal, dget, ih h.2]
    by_cases hk : k = f
    · subst hk
      have : dget t k = none := by
        cases hm : dget t k with
        | none => rfl
        | some u =>
          exfalso
          exact h.1 ((mem_dkeys_iff_dget t k).mpr (by simp [hm]))
      simp [this]
    · cases hm : dget t f <;> simp [hk]

/-- Setting only fields that are already present does not change the key
list. -/
theorem dkeys_dsetMany_of_subset (r : Doc) :
    ∀ d : Doc, (∀ f ∈ dkeys r, f ∈ dkeys d) → dkeys (dsetMany d r) = dkeys d := by
  induction r with
  | nil => intro d _; rfl
  | cons hd t ih =>
    intro d hsub
    obtain ⟨k, v⟩ := hd
    have hk : k ∈ dkeys d := hsub k (by simp [dkeys])
    have hset : dkeys (dset d k v) = dkeys d := by
      rw [dkeys_dset, if_pos hk]
    rw [dsetMany_cons, ih (dset d k v) (fun f hf => by
      rw [hset]
      exact hsub f (by simp [dkeys] at hf ⊢; exact Or.inr hf)), hset]

/-- Existing fields survive a `$set`. -/
theorem mem_dkeys_dsetMany_left (r : Doc) :
    ∀ d : Doc, ∀ f ∈ dkeys d, f ∈ dkeys (dsetMany d r) := by
  induction r with
  | nil => intro d f hf; exact hf
  | cons hd t ih =>
    intro d f hf
    obtain ⟨k, v⟩ := hd
    rw [dsetMany_cons]
    refine ih (dset d k v) f ?_
    rw [dkeys_dset]
    by_cases hk : k ∈ dkeys d <;> simp [hk, hf]

/-- Fields of the update document are present after the `$set`. -/
theorem mem_dkeys_dsetMany_right (r d : Doc) (f : String) (hf : f ∈ dkeys r) :
    f ∈ dkeys (dsetMany d r) := by
  rw [mem_dkeys_iff_lastVal] at hf
  rw [mem_dkeys_iff_dget, dget_dsetMany]
  cases h : lastVal r f with
  | some v => simp
  | none => rw [h] at hf; simp at hf

/-- A `$set` of one field preserves distinctness of field names. -/
theorem nodup_dkeys_dset (d : Doc) (k : String) (v : Value)
    (h : (dkeys d).Nodup) : (dkeys (dset d k v)).Nodup := by
  rw [dkeys_dset]
  by_cases hk : k ∈ dkeys d
  · simpa [hk] using h
  · simp [hk, List.nodup_append, h]

/-- A `$set` with a whole document preserves distinctness of field names. -/
theorem nodup_dkeys_dsetMany (r : Doc) :
    ∀ d : Doc, (dkeys d).Nodup → (dkeys (dsetMany d r)).Nodup := by
  induction r with
  | nil => intro d h; exact h
  | cons hd t ih =>
    intro d h
    obtain ⟨k, v⟩ := hd
    rw [dsetMany_cons]
    exact ih _ (nodup_dkeys_dset d k v h)

/-- Extensionality: two documents with the same (duplicate-free) key sequence
and the same lookups are equal. -/
theorem dext (d₁ : Doc) :
    ∀ d₂ : Doc, dkeys d₁ = dkeys d₂ → (dkeys d₁).Nodup →
      (∀ f, dget d₁ f = dget d₂ f) → d₁ = d₂ := by
  induction d₁ with
  | nil =>
    intro d₂ hk _ _
    cases d₂ with
    | nil => rfl
    | cons hd t => simp [dkeys] at hk
  | cons hd t ih =>
    intro d₂ hk hnd hget
    obtain ⟨k, v⟩ := hd
    cases d₂ with
    | nil => simp [dkeys] at hk
    | cons hd₂ t₂ =>
      obtain ⟨k₂, v₂⟩ := hd₂
      simp only [dkeys, List.map_cons, List.cons.injEq] at hk
      obtain ⟨hkk, htk⟩ := hk
      subst hkk
      simp only [dkeys, List.map_cons, List.nodup_cons] at hnd
      have hv : v = v₂ := by
        have := hget k
        simp [dget] at this
        exact this
      subst hv
      have htail : ∀ f, dget t f = dget t₂ f := by
        intro f
        by_cases hf : k = f
        · subst hf
          have h₁ : dget t k = none := by
            cases hm : dget t k with
            | none => rfl
            | some u =>
              exact absurd ((mem_dkeys_iff_dget t k).mpr (by simp [hm])) hnd.1
          have h₂ : dget t₂ k = none := by
            cases hm : dget t₂ k with
            | none => rfl
            | some u =>
              have : k ∈ dkeys t₂ := (mem_dkeys_iff_dget t₂ k).mpr (by simp [hm])
              rw [dkeys, ← htk, ← dkeys] at this
              exact absurd this hnd.1
          rw [h₁, h₂]
        · have := hget f
          simpa [dget, hf] using this
      rw [ih t₂ htk hnd.2 htail]

/-- Core absorption lemma: if `d` already absorbs the update sequence `P`,
then the result of applying a further update `r` absorbs `P ++ r`.  This is
what makes a second identical `$set` pass a no-op. -/
theorem dsetMany_absorb_extend (d P r : Doc) (hnd : (dkeys d).Nodup)
    (hP : dsetMany d P = d) :
    dsetMany (dsetMany d r) (P ++ r) = dsetMany d r := by
  have hPkeys : ∀ f ∈ dkeys P, f ∈ dkeys d := by
    intro f hf
    have := mem_dkeys_dsetMany_right P d f hf
    rwa [hP] at this
  refine dext _ _ ?_ ?_ ?_
  · rw [dkeys_dsetMany_of_subset]
    intro f hf
    rw [dkeys] at hf
    rw [List.map_append] at hf
    rcases List.mem_append.mp hf with h | h
    · exact mem_dkeys_dsetMany_left r d f (hPkeys f h)
    · exact mem_dkeys_dsetMany_right r d f h
  · rw [dkeys_dsetMany_of_subset]
    · exact nodup_dkeys_dsetMany r d hnd
    · intro f hf
      rw [dkeys, List.map_append] at hf
      rcases List.mem_append.mp hf with h | h
      · exact mem_dkeys_dsetMany_left r d f (hPkeys f h)
      · exact mem_dkeys_dsetMany_right r d f h
  · intro f
    rw [dget_dsetMany, lastVal_append]
    cases hr : lastVal r f with
    | some u =>
      simp only []
      rw [dget_dsetMany, hr]
    | none =>
      cases hp : lastVal P f with
      | some u =>
        simp only []
        have : dget d f = some u := by
          conv_lhs => rw [← hP]
          rw [dget_dsetMany, hp]
        rw [dget_dsetMany, hr, this]
      | none =>
        simp only []

/-- A second identical `$set` pass over a duplicate-free document changes
nothing. -/
theorem dsetMany_absorb_self (d r : Doc) (hnd : (dkeys d).Nodup) :
    dsetMany (dsetMany d r) r = dsetMany d r := by
  have := dsetMany_absorb_extend d [] r hnd (by rfl)
  simpa using this

/-! ## The bulk upsert operation

`upsert_df` builds one `UpdateOne(filter={pk: doc[pk]}, update={'$set': doc},
upsert=True)` per record and submits them in a single `bulk_write`.  MongoDB
executes the requests in order: each one rewrites the first document matching
the equality filter with `$set`, or, when nothing matches, inserts a new
document assembled from the filter's equality field and the `$set` fields. -/

/-- One pending write: the primary-key value of the equality filter together
with the record used as the `$set` document. -/
abbrev UpdateOp := Value × Doc

/-- The list comprehension of `upsert_df` (line 313-316): one operation per
record, reading `doc[primary_key_column]` for the filter.  A record without
the key raises `KeyError`, modelled as `none`; the comprehension runs before
any write is issued. -/
def buildOps (documents : List Doc) (primary_key_column : String) :
    Option (List UpdateOp) :=
  match documents with
  | [] => some []
  | doc :: rest =>
    match dget doc primary_key_column with
    | none => none
    | some v =>
      match buildOps rest primary_key_column with
      | none => none
      | some ops => some ((v, doc) :: ops)

/-- The first stored document whose primary-key field equals `v`, the
document MongoDB's `UpdateOne` equality filter selects. -/
def findMatch (pk : String) (v : Value) : List Doc → Option Doc
  | [] => none
  | d :: t => if dget d pk = some v then some d else findMatch pk v t

/-- Effect of one `UpdateOne(filter={pk: v}, update={'$set': r}, upsert=True)`
on the collection: rewrite the first matching document with `$set`, or append
the upserted document built from the filter field plus the `$set` fields. -/
def applyUpdateOne (pk : String) (v : Value) (r : Doc) : List Doc → List Doc
  | [] => [dsetMany [(pk, v)] r]
  | d :: t =>
    if dget d pk = some v then dsetMany d r :: t
    else d :: applyUpdateOne pk v r t

/-- The collection state after a list of `UpdateOne` operations, in order. -/
def applyOps (pk : String) (s : List Doc) (ops : List UpdateOp) : List Doc :=
  ops.foldl (fun s op => applyUpdateOne pk op.1 op.2 s) s

/-- The counts pymongo's `BulkWriteResult` reports for a bulk of upserts. -/
structure BulkWriteResult where
  matched_count : Nat
  modified_count : Nat
  upserted_count : Nat
deriving DecidableEq, Repr

/-- Counts contributed by one `UpdateOne` on state `s`: a match counts as
matched (and as modified only when `$set` actually changes the document); no
match counts as one upsert. -/
def opCounts (pk : String) (v : Value) (r : Doc) (s : List Doc) :
    Nat × Nat × Nat :=
  match findMatch pk v s with
  | some d => (1, if dsetMany d r = d then 0 else 1, 0)
  | none => (0, 0, 1)

/-- `collection.bulk_write(operations)` (line 317): the final state together
with the aggregated result counts. -/
def bulk_write (pk : String) (s : List Doc) (ops : List UpdateOp) :
    List Doc × BulkWriteResult :=
  ops.foldl
    (fun acc op =>
      let c := opCounts pk op.1 op.2 acc.1
      (applyUpdateOne pk op.1 op.2 acc.1,
       ⟨acc.2.matched_count + c.1, acc.2.modified_count + c.2.1,
        acc.2.upserted_count + c.2.2⟩))
    (s, ⟨0, 0, 0⟩)

/-- Exceptions `upsert_df` can raise before any write happens: `KeyError`
from `doc[primary_key_column]` in the comprehension, and pymongo's
`InvalidOperation` when `bulk_write` receives an empty operation list. -/
inductive PyError where
  | keyError
  | invalidOperation
deriving DecidableEq, Repr

/-- The write pipeline of `upsert_df` on the bound collection: build the
operations from the records (raising `KeyError` if the key column is absent),
then hand them to `bulk_write`, which rejects an empty list. -/
def upsertCore (coll : List Doc) (documents : List Doc)
    (primary_key_column : String) :
    Except PyError (List Doc × BulkWriteResult) :=
  match buildOps documents primary_key_column with
  | none => .error .keyError
  | some ops =>
    match ops with
    | [] => .error .invalidOperation
    | _ => .ok (bulk_write primary_key_column coll ops)

/-- Everything `upsert_df` produces on a successful run: the new collection
state, the printed status line (database name, collection name and the bulk
counts — the write is acknowledged under the default write concern), and the
value returned to the caller.  The method body has no `return` statement, so
the returned value is Python's `None`, modelled as `none`. -/
structure UpsertOutcome where
  state : List Doc
  printed : Option (String × String × BulkWriteResult)
  ret : Option BulkWriteResult
deriving DecidableEq, Repr

/-- `MongoDBHelper.upsert_df` on the collection bound to
`database_name.collection_name`: `df` is the record list that
`df.to_dict('records')` yields from the DataFrame. -/
def upsert_df (coll : List Doc) (df : List Doc)
    (database_name collection_name primary_key_column : String) :
    Except PyError UpsertOutcome :=
  match upsertCore coll df primary_key_column with
  | .error e => .error e
  | .ok res => .ok ⟨res.1, some (database_name, collection_name, res.2), none⟩

/-- The stored collection state after a run of `upsert_df`: when an exception
is raised before (or by) `bulk_write`, the stored state is unchanged. -/
def upsertState (coll : List Doc) (df : List Doc)
    (primary_key_column : String) : List Doc :=
  match upsertCore coll df primary_key_column with
  | .error _ => coll
  | .ok res => res.1

/-! ## Wellformedness

The spec's data model: a Record is a mapping from field name to value (so its
field names are pairwise distinct), and the primary-key value "must be unique
within the target collection scope". -/

/-- Two stored documents do not share a primary-key value (documents without
the key field never conflict). -/
def KeyDistinct (pk : String) (d₁ d₂ : Doc) : Prop :=
  dget d₁ pk = none ∨ dget d₁ pk ≠ dget d₂ pk

/-- The data-model invariant on a stored collection: every document is a
mapping (duplicate-free field names) and primary-key values are unique. -/
def WfState (pk : String) (s : List Doc) : Prop :=
  (∀ d ∈ s, (dkeys d).Nodup) ∧ s.Pairwise (KeyDistinct pk)

/-- Wellformed pending write: the `$set` record is a mapping and carries the
filter's primary-key value, as the comprehension of `upsert_df` builds it. -/
def WfOp (pk : String) (op : UpdateOp) : Prop :=
  (dkeys op.2).Nodup ∧ dget op.2 pk = some op.1

instance (pk : String) (d₁ d₂ : Doc) : Decidable (KeyDistinct pk d₁ d₂) := by
  unfold KeyDistinct; infer_instance

instance (pk : String) (s : List Doc) : Decidable (WfState pk s) := by
  unfold WfState; infer_instance

instance (pk : String) (op : UpdateOp) : Decidable (WfOp pk op) := by
  unfold WfOp; infer_instance

@[simp] theorem applyOps_nil (pk : String) (s : List Doc) :
    applyOps pk s [] = s := rfl

theorem applyOps_cons (pk : String) (s : List Doc) (op : UpdateOp)
    (ops : List UpdateOp) :
    applyOps pk s (op :: ops) = applyOps pk (applyUpdateOne pk op.1 op.2 s) ops := rfl

theorem applyOps_append (pk : String) (s : List Doc) (ops₁ ops₂ : List UpdateOp) :
    applyOps pk s (ops₁ ++ ops₂) = applyOps pk (applyOps pk s ops₁) ops₂ :=
  List.foldl_append _ _ _ _

/-- The state component of `bulk_write` is the fold of the individual
updates. -/
theorem bulk_write_fst (pk : String) (ops : List UpdateOp) :
    ∀ (s : List Doc) (acc : BulkWriteResult),
      (ops.foldl
        (fun acc op =>
          let c := opCounts pk op.1 op.2 acc.1
          (applyUpdateOne pk op.1 op.2 acc.1,
           (⟨acc.2.matched_count + c.1, acc.2.modified_count + c.2.1,
             acc.2.upserted_count + c.2.2⟩ : BulkWriteResult)))
        (s, acc)).1 = applyOps pk s ops := by
  induction ops with
  | nil => intro s acc; rfl
  | cons op t ih =>
    intro s acc
    rw [applyOps_cons]
    exact ih _ _

theorem bulk_write_state (pk : String) (s : List Doc) (ops : List UpdateOp) :
    (bulk_write pk s ops).1 = applyOps pk s ops :=
  bulk_write_fst pk ops s ⟨0, 0, 0⟩

/-- No document matches iff every stored document misses the filter. -/
theorem findMatch_eq_none_iff (pk : String) (v : Value) (s : List Doc) :
    findMatch pk v s = none ↔ ∀ d ∈ s, dget d pk ≠ some v := by
  induction s with
  | nil => simp [findMatch]
  | cons d t ih =>
    by_cases h : dget d pk = some v
    · simp [findMatch, h]
    · simp [findMatch, h, ih]

/-- A found match is a stored document satisfying the filter. -/
theorem findMatch_some (pk : String) (v : Value) (s : List Doc) (d : Doc)
    (h : findMatch pk v s = some d) : d ∈ s ∧ dget d pk = some v := by
  induction s with
  | nil => simp [findMatch] at h
  | cons d' t ih =>
    by_cases hd : dget d' pk = some v
    · simp only [findMatch, if_pos hd, Option.some.injEq] at h
      subst h
      exact ⟨List.mem_cons_self _ _, hd⟩
    · simp only [findMatch, if_neg hd] at h
      obtain ⟨hm, hk⟩ := ih h
      exact ⟨List.mem_cons_of_mem _ hm, hk⟩

/-- With no match, `UpdateOne(upsert=True)` appends the upserted document. -/
theorem applyUpdateOne_of_no_match (pk : String) (v : Value) (r : Doc)
    (s : List Doc) (h : findMatch pk v s = none) :
    applyUpdateOne pk v r s = s ++ [dsetMany [(pk, v)] r] := by
  induction s with
  | nil => rfl
  | cons d t ih =>
    simp only [findMatch] at h
    by_cases hd : dget d pk = some v
    · simp [hd] at h
    · simp only [if_neg hd] at h
      simp [applyUpdateOne, hd, ih h]

/-- With a match, `UpdateOne` rewrites exactly the first matching document. -/
theorem applyUpdateOne_of_match (pk : String) (v : Value) (r : Doc)
    (s : List Doc) (d₀ : Doc) (h : findMatch pk v s = some d₀) :
    ∃ pre suf, s = pre ++ d₀ :: suf ∧ (∀ d ∈ pre, dget d pk ≠ some v) ∧
      applyUpdateOne pk v r s = pre ++ dsetMany d₀ r :: suf := by
  induction s with
  | nil => simp [findMatch] at h
  | cons d t ih =>
    by_cases hd : dget d pk = some v
    · simp only [findMatch, if_pos hd, Option.some.injEq] at h
      subst h
      exact ⟨[], t, rfl, by simp, by simp [applyUpdateOne, hd]⟩
    · simp only [findMatch, if_neg hd] at h
      obtain ⟨pre, suf, hs, hpre, happ⟩ := ih h
      refine ⟨d :: pre, suf, by simp [hs], ?_, ?_⟩
      · intro x hx
        rcases List.mem_cons.mp hx with hx | hx
        · subst hx; exact hd
        · exact hpre x hx
      · simp [applyUpdateOne, hd, happ]

/-- A wellformed `$set` leaves the primary-key field at the filter value. -/
theorem dget_dsetMany_pk (pk : String) (v : Value) (r d : Doc)
    (hop : WfOp pk (v, r)) :
    dget (dsetMany d r) pk = some v := by
  rw [dget_dsetMany, lastVal_eq_dget r hop.1, hop.2]

/-- The upserted document carries the filter's primary-key value. -/
theorem dget_seed_pk (pk : String) (v : Value) (r : Doc)
    (hop : WfOp pk (v, r)) :
    dget (dsetMany [(pk, v)] r) pk = some v :=
  dget_dsetMany_pk pk v r [(pk, v)] hop

/-- After one wellformed `UpdateOne`, a document with the written key is
present. -/
theorem exists_match_applyUpdateOne (pk : String) (v : Value) (r : Doc)
    (s : List Doc) (hop : WfOp pk (v, r)) :
    ∃ d ∈ applyUpdateOne pk v r s, dget d pk = some v := by
  cases h : findMatch pk v s with
  | none =>
    rw [applyUpdateOne_of_no_match pk v r s h]
    exact ⟨dsetMany [(pk, v)] r, by simp, dget_seed_pk pk v r hop⟩
  | some d₀ =>
    obtain ⟨pre, suf, _, _, happ⟩ := applyUpdateOne_of_match pk v r s d₀ h
    refine ⟨dsetMany d₀ r, ?_, ?_⟩
    · rw [happ]; simp
    · exact dget_dsetMany_pk pk v r d₀ hop

/-- A primary-key value present in the collection stays present across any
wellformed `UpdateOne`. -/
theorem exists_match_persists (pk : String) (v : Value) (r : Doc)
    (v' : Value) (s : List Doc) (hop : WfOp pk (v, r))
    (h : ∃ d ∈ s, dget d pk = some v') :
    ∃ d ∈ applyUpdateOne pk v r s, dget d pk = some v' := by
  by_cases hv : v' = v
  · subst hv
    exact exists_match_applyUpdateOne pk _ r s hop
  · obtain ⟨d, hm, hk⟩ := h
    cases hfm : findMatch pk v s with
    | none =>
      rw [applyUpdateOne_of_no_match pk v r s hfm]
      exact ⟨d, List.mem_append_left _ hm, hk⟩
    | some d₀ =>
      obtain ⟨pre, suf, hs, _, happ⟩ := applyUpdateOne_of_match pk v r s d₀ hfm
      rw [happ]
      have hd₀ : dget d₀ pk = some v := (findMatch_some pk v s d₀ hfm).2
      rw [hs] at hm
      rcases List.mem_append.mp hm with hm | hm
      · exact ⟨d, List.mem_append_left _ hm, hk⟩
      · rcases List.mem_cons.mp hm with hm | hm
        · subst hm
          rw [hk] at hd₀
          exact absurd (Option.some.inj hd₀) hv
        · exact ⟨d, List.mem_append_right _ (List.mem_cons_of_mem _ hm), hk⟩

/-- A primary-key value present in the collection stays present across a
wellformed bulk. -/
theorem exists_match_applyOps_persists (pk : String) (ops : List UpdateOp) :
    ∀ (s : List Doc) (v' : Value), (∀ op ∈ ops, WfOp pk op) →
      (∃ d ∈ s, dget d pk = some v') →
      ∃ d ∈ applyOps pk s ops, dget d pk = some v' := by
  induction ops with
  | nil => intro s v' _ h; exact h
  | cons op t ih =>
    intro s v' hops h
    rw [applyOps_cons]
    exact ih _ v' (fun o ho => hops o (List.mem_cons_of_mem _ ho))
      (exists_match_persists pk op.1 op.2 v' s
        (hops op (List.mem_cons_self _ _)) h)

/-- Every primary-key value written by a wellformed bulk is present
afterwards. -/
theorem exists_match_applyOps (pk : String) (ops : List UpdateOp) :
    ∀ (s : List Doc) (op : UpdateOp), (∀ o ∈ ops, WfOp pk o) → op ∈ ops →
      ∃ d ∈ applyOps pk s ops, dget d pk = some op.1 := by
  induction ops with
  | nil => intro s op _ h; simp at h
  | cons o t ih =>
    intro s op hops hmem
    rw [applyOps_cons]
    rcases List.mem_cons.mp hmem with h | h
    · subst h
      exact exists_match_applyOps_persists pk t _ op.1
        (fun o' ho' => hops o' (List.mem_cons_of_mem _ ho'))
        (exists_match_applyUpdateOne pk op.1 op.2 s
          (hops op (List.mem_cons_self _ _)))
    · exact ih _ op (fun o' ho' => hops o' (List.mem_cons_of_mem _ ho')) h

/-- `KeyDistinct` only inspects the primary-key fields, so it transfers along
documents with equal key values. -/
theorem keyDistinct_congr (pk : String) (d₀ d₁ : Doc)
    (h : dget d₁ pk = dget d₀ pk) :
    (∀ x, KeyDistinct pk x d₀ → KeyDistinct pk x d₁) ∧
    (∀ y, KeyDistinct pk d₀ y → KeyDistinct pk d₁ y) := by
  constructor
  · intro x hx
    rcases hx with hx | hx
    · exact Or.inl hx
    · exact Or.inr (by rw [h]; exact hx)
  · intro y hy
    rcases hy with hy | hy
    · exact Or.inl (by rw [h]; exact hy)
    · exact Or.inr (by rw [h]; exact hy)

/-- One wellformed `UpdateOne` preserves the data-model invariant. -/
theorem wfState_applyUpdateOne (pk : String) (v : Value) (r : Doc)
    (s : List Doc) (hs : WfState pk s) (hop : WfOp pk (v, r)) :
    WfState pk (applyUpdateOne pk v r s) := by
  obtain ⟨hnd, hpair⟩ := hs
  cases hfm : findMatch pk v s with
  | none =>
    rw [applyUpdateOne_of_no_match pk v r s hfm]
    constructor
    · intro d hd
      rcases List.mem_append.mp hd with hd | hd
      · exact hnd d hd
      · rcases List.mem_singleton.mp hd with rfl
        exact nodup_dkeys_dsetMany r [(pk, v)] (by simp [dkeys])
    · rw [List.pairwise_append]
      refine ⟨hpair, List.pairwise_singleton _ _, ?_⟩
      intro x hx y hy
      rcases List.mem_singleton.mp hy with rfl
      cases hx' : dget x pk with
      | none => exact Or.inl hx'
      | some vx =>
        refine Or.inr ?_
        rw [hx', dget_seed_pk pk v r hop]
        intro hcontra
        have := (findMatch_eq_none_iff pk v s).mp hfm x hx
        rw [hx'] at this
        exact this hcontra
  | some d₀ =>
    obtain ⟨pre, suf, hsplit, _, happ⟩ := applyUpdateOne_of_match pk v r s d₀ hfm
    have hd₀mem : d₀ ∈ s := (findMatch_some pk v s d₀ hfm).1
    have hd₀key : dget d₀ pk = some v := (findMatch_some pk v s d₀ hfm).2
    have hkey₁ : dget (dsetMany d₀ r) pk = dget d₀ pk := by
      rw [dget_dsetMany_pk pk v r d₀ hop, hd₀key]
    rw [happ]
    constructor
    · intro d hd
      rcases List.mem_append.mp hd with hd | hd
      · exact hnd d (by rw [hsplit]; exact List.mem_append_left _ hd)
      · rcases List.mem_cons.mp hd with rfl | hd
        · exact nodup_dkeys_dsetMany r d₀ (hnd d₀ hd₀mem)
        · exact hnd d (by
            rw [hsplit]
            exact List.mem_append_right _ (List.mem_cons_of_mem _ hd))
    · rw [hsplit] at hpair
      rw [List.pairwise_append] at hpair ⊢
      obtain ⟨hp₁, hp₂, hp₃⟩ := hpair
      rw [List.pairwise_cons] at hp₂ ⊢
      obtain ⟨hcong₁, hcong₂⟩ := keyDistinct_congr pk d₀ (dsetMany d₀ r) hkey₁
      refine ⟨hp₁, ⟨fun y hy => hcong₂ y (hp₂.1 y hy), hp₂.2⟩, ?_⟩
      intro x hx y hy
      rcases List.mem_cons.mp hy with rfl | hy
      · exact hcong₁ x (hp₃ x hx d₀ (List.mem_cons_self _ _))
      · exact hp₃ x hx y (List.mem_cons_of_mem _ hy)

/-- A wellformed bulk preserves the data-model invariant. -/
theorem wfState_applyOps (pk : String) (ops : List UpdateOp) :
    ∀ s : List Doc, WfState pk s → (∀ op ∈ ops, WfOp pk op) →
      WfState pk (applyOps pk s ops) := by
  induction ops with
  | nil => intro s hs _; exact hs
  | cons op t ih =>
    intro s hs hops
    rw [applyOps_cons]
    exact ih _
      (wfState_applyUpdateOne pk op.1 op.2 s hs (hops op (List.mem_cons_self _ _)))
      (fun o ho => hops o (List.mem_cons_of_mem _ ho))

/-! ## Idempotence of the bulk upsert

The net effect of a bulk on the (unique) document with key `v` is the `$set`
of the concatenation of all records written under `v`, in order.  A document
that already absorbs that concatenation is untouched by a second pass. -/

/-- Concatenation of the `$set` records a bulk writes under key `v`, in
order. -/
def pendingAll (v : Value) : List UpdateOp → Doc
  | [] => []
  | (v', r) :: t => if v' = v then r ++ pendingAll v t else pendingAll v t

@[simp] theorem pendingAll_nil (v : Value) : pendingAll v [] = [] := rfl

theorem pendingAll_cons (v v' : Value) (r : Doc) (t : List UpdateOp) :
    pendingAll v ((v', r) :: t) =
      if v' = v then r ++ pendingAll v t else pendingAll v t := rfl

theorem pendingAll_append_singleton (v v' : Value) (r : Doc)
    (T : List UpdateOp) :
    pendingAll v (T ++ [(v', r)]) =
      pendingAll v T ++ (if v' = v then r else []) := by
  induction T with
  | nil =>
    by_cases h : v' = v <;> simp [pendingAll_cons, h]
  | cons o t ih =>
    obtain ⟨vo, ro⟩ := o
    by_cases h : vo = v <;> simp [pendingAll_cons, h, ih]

theorem pendingAll_eq_nil (v : Value) (T : List UpdateOp)
    (h : ∀ op ∈ T, op.1 ≠ v) : pendingAll v T = [] := by
  induction T with
  | nil => rfl
  | cons o t ih =>
    obtain ⟨vo, ro⟩ := o
    rw [pendingAll_cons, if_neg (h (vo, ro) (List.mem_cons_self _ _))]
    exact ih fun op hop => h op (List.mem_cons_of_mem _ hop)

/-- When the bulk's keys are pairwise distinct, the pending writes under the
key of `(v, r)` are exactly `r`. -/
theorem pendingAll_eq_single (v : Value) (r : Doc) (T : List UpdateOp)
    (hnd : (T.map Prod.fst).Nodup) (hmem : (v, r) ∈ T) :
    pendingAll v T = r := by
  induction T with
  | nil => simp at hmem
  | cons o t ih =>
    obtain ⟨vo, ro⟩ := o
    rw [List.map_cons, List.nodup_cons] at hnd
    rcases List.mem_cons.mp hmem with heq | hmem
    · obtain ⟨rfl, rfl⟩ := Prod.mk.injEq .. ▸ heq
      rw [pendingAll_cons, if_pos rfl, pendingAll_eq_nil v t ?_, List.append_nil]
      intro op hop hk
      have hm : op.1 ∈ List.map Prod.fst t := List.mem_map_of_mem Prod.fst hop
      rw [hk] at hm
      exact hnd.1 hm
    · have hvmem : v ∈ List.map Prod.fst t := by
        have := List.mem_map_of_mem Prod.fst hmem
        simpa using this
      have ho : vo ≠ v := by
        intro hk
        rw [← hk] at hvmem
        exact hnd.1 hvmem
      rw [pendingAll_cons, if_neg ho]
      exact ih hnd.2 hmem

/-- Core invariant: after a wellformed bulk, every stored document absorbs all
writes pending under its own key. -/
theorem applyOps_absorb (pk : String) (ops : List UpdateOp) :
    ∀ s : List Doc, WfState pk s → (∀ op ∈ ops, WfOp pk op) →
      ∀ d ∈ applyOps pk s ops, ∀ v, dget d pk = some v →
        dsetMany d (pendingAll v ops) = d := by
  induction ops using List.reverseRecOn with
  | nil =>
    intro s _ _ d _ v _
    simp
  | append_singleton T op ih =>
    intro s hs hops d hd v hv
    obtain ⟨v₀, r₀⟩ := op
    have hT : ∀ o ∈ T, WfOp pk o := fun o ho => hops o (List.mem_append_left _ ho)
    have hop : WfOp pk (v₀, r₀) :=
      hops _ (List.mem_append_right _ (List.mem_singleton.mpr rfl))
    have hs1 : WfState pk (applyOps pk s T) := wfState_applyOps pk T s hs hT
    rw [applyOps_append, applyOps_cons, applyOps_nil] at hd
    dsimp only at hd
    cases hfm : findMatch pk v₀ (applyOps pk s T) with
    | none =>
      rw [applyUpdateOne_of_no_match pk v₀ r₀ _ hfm] at hd
      rcases List.mem_append.mp hd with hd | hd
      · have hne : v₀ ≠ v := by
          intro h
          exact (findMatch_eq_none_iff pk v₀ _).mp hfm d hd (h ▸ hv)
        rw [pendingAll_append_singleton, if_neg hne, List.append_nil]
        exact ih s hs hT d hd v hv
      · rcases List.mem_singleton.mp hd with rfl
        have hkey : v = v₀ := by
          have := dget_seed_pk pk v₀ r₀ hop
          rw [hv] at this
          exact Option.some.inj this
        subst hkey
        have hTnone : ∀ o ∈ T, o.1 ≠ v := by
          intro o ho hk
          obtain ⟨d', hd', hkd'⟩ := exists_match_applyOps pk T s o hT ho
          rw [hk] at hkd'
          exact (findMatch_eq_none_iff pk v _).mp hfm d' hd' hkd'
        rw [pendingAll_append_singleton, pendingAll_eq_nil v T hTnone,
          if_pos rfl, List.nil_append]
        exact dsetMany_absorb_self [(pk, v)] r₀ (by simp [dkeys])
    | some d₀ =>
      obtain ⟨pre, suf, hsplit, hpre, happ⟩ :=
        applyUpdateOne_of_match pk v₀ r₀ _ d₀ hfm
      have hd₀mem : d₀ ∈ applyOps pk s T := (findMatch_some pk v₀ _ d₀ hfm).1
      have hd₀key : dget d₀ pk = some v₀ := (findMatch_some pk v₀ _ d₀ hfm).2
      rw [happ] at hd
      rcases List.mem_append.mp hd with hd | hd
      · have hne : v₀ ≠ v := by
          intro h
          exact hpre d hd (by rw [hv, h])
        rw [pendingAll_append_singleton, if_neg hne, List.append_nil]
        exact ih s hs hT d (by rw [hsplit]; exact List.mem_append_left _ hd) v hv
      · rcases List.mem_cons.mp hd with rfl | hd
        · have hkey : v = v₀ := by
            have := dget_dsetMany_pk pk v₀ r₀ d₀ hop
            rw [hv] at this
            exact Option.some.inj this
          subst hkey
          rw [pendingAll_append_singleton, if_pos rfl]
          exact dsetMany_absorb_extend d₀ (pendingAll v T) r₀
            (hs1.1 d₀ hd₀mem) (ih s hs hT d₀ hd₀mem v hd₀key)
        · have hne : v₀ ≠ v := by
            intro h
            subst h
            have hp := hs1.2
            rw [hsplit, List.pairwise_append] at hp
            have := (List.pairwise_cons.mp hp.2.1).1 d hd
            rcases this with hc | hc
            · rw [hd₀key] at hc; cases hc
            · rw [hd₀key, hv] at hc; exact hc rfl
          rw [pendingAll_append_singleton, if_neg hne, List.append_nil]
          exact ih s hs hT d
            (by rw [hsplit]
                exact List.mem_append_right _ (List.mem_cons_of_mem _ hd)) v hv

/-- Mapping a function that fixes every element is the identity. -/
theorem list_map_eq_self {α : Type} (f : α → α) :
    ∀ l : List α, (∀ a ∈ l, f a = a) → l.map f = l := by
  intro l
  induction l with
  | nil => intro _; rfl
  | cons a t ih =>
    intro h
    rw [List.map_cons, h a (List.mem_cons_self _ _),
      ih fun x hx => h x (List.mem_cons_of_mem _ hx)]

/-- Congruence for `List.map` over the members of the list. -/
theorem list_map_congr {α β : Type} (f g : α → β) :
    ∀ l : List α, (∀ a ∈ l, f a = g a) → l.map f = l.map g := by
  intro l
  induction l with
  | nil => intro _; rfl
  | cons a t ih =>
    intro h
    rw [List.map_cons, List.map_cons, h a (List.mem_cons_self _ _),
      ih fun x hx => h x (List.mem_cons_of_mem _ hx)]

/-- No matching document means the per-document update map fixes the list. -/
theorem map_no_match (pk : String) (v : Value) (r : Doc) (t : List Doc)
    (h : ∀ d ∈ t, dget d pk ≠ some v) :
    t.map (fun d => if dget d pk = some v then dsetMany d r else d) = t :=
  list_map_eq_self _ t fun d hd => if_neg (h d hd)

/-- With unique keys and a present match, one `UpdateOne` acts as a
per-document map. -/
theorem applyUpdateOne_eq_map (pk : String) (v : Value) (r : Doc) :
    ∀ s : List Doc, s.Pairwise (KeyDistinct pk) →
      (∃ d ∈ s, dget d pk = some v) →
      applyUpdateOne pk v r s =
        s.map (fun d => if dget d pk = some v then dsetMany d r else d) := by
  intro s
  induction s with
  | nil =>
    intro _ hpres
    simp at hpres
  | cons d t ih =>
    intro hpair hpres
    rw [List.pairwise_cons] at hpair
    by_cases hd : dget d pk = some v
    · have hrest : ∀ y ∈ t, dget y pk ≠ some v := by
        intro y hy hc
        rcases hpair.1 y hy with h | h
        · rw [hd] at h; cases h
        · rw [hd, hc] at h; exact h rfl
      simp [applyUpdateOne, hd, map_no_match pk v r t hrest]
    · have hpres' : ∃ x ∈ t, dget x pk = some v := by
        obtain ⟨x, hx, hk⟩ := hpres
        rcases List.mem_cons.mp hx with rfl | hx
        · exact absurd hk hd
        · exact ⟨x, hx, hk⟩
      simp [applyUpdateOne, hd, ih hpair.2 hpres']

/-- Second-pass normal form: when every written key is already present, a
wellformed bulk acts as a per-document map collecting the pending writes. -/
theorem applyOps_eq_map (pk : String) (ops : List UpdateOp) :
    ∀ s : List Doc, WfState pk s → (∀ op ∈ ops, WfOp pk op) →
      (∀ op ∈ ops, ∃ d ∈ s, dget d pk = some op.1) →
      applyOps pk s ops = s.map (fun d =>
        match dget d pk with
        | some v => dsetMany d (pendingAll v ops)
        | none => d) := by
  induction ops with
  | nil =>
    intro s _ _ _
    rw [applyOps_nil]
    symm
    apply list_map_eq_self
    intro d _
    cases dget d pk <;> simp
  | cons op t ih =>
    intro s hs hops hpres
    obtain ⟨v₀, r₀⟩ := op
    have hop : WfOp pk (v₀, r₀) := hops _ (List.mem_cons_self _ _)
    have hopsT : ∀ o ∈ t, WfOp pk o := fun o ho => hops o (List.mem_cons_of_mem _ ho)
    have hstep : applyUpdateOne pk v₀ r₀ s =
        s.map (fun d => if dget d pk = some v₀ then dsetMany d r₀ else d) :=
      applyUpdateOne_eq_map pk v₀ r₀ s hs.2 (hpres _ (List.mem_cons_self _ _))
    have hWf' : WfState pk (applyUpdateOne pk v₀ r₀ s) :=
      wfState_applyUpdateOne pk v₀ r₀ s hs hop
    have hpres' : ∀ o ∈ t, ∃ d ∈ applyUpdateOne pk v₀ r₀ s, dget d pk = some o.1 :=
      fun o ho => exists_match_persists pk v₀ r₀ o.1 s hop
        (hpres o (List.mem_cons_of_mem _ ho))
    rw [hstep] at hWf' hpres'
    rw [applyOps_cons]
    dsimp only
    rw [hstep, ih _ hWf' hopsT hpres', List.map_map]
    refine list_map_congr _ _ s ?_
    intro d _
    dsimp only [Function.comp]
    by_cases h0 : dget d pk = some v₀
    · rw [if_pos h0, dget_dsetMany_pk pk v₀ r₀ d hop, h0]
      show dsetMany (dsetMany d r₀) (pendingAll v₀ t) =
        dsetMany d (pendingAll v₀ ((v₀, r₀) :: t))
      rw [pendingAll_cons, if_pos rfl, dsetMany_append]
    · rw [if_neg h0]
      cases h : dget d pk with
      | none => rfl
      | some v =>
        have hv : ¬ v₀ = v := by
          intro hc
          exact h0 (by rw [h, hc])
        show dsetMany d (pendingAll v t) = dsetMany d (pendingAll v ((v₀, r₀) :: t))
        rw [pendingAll_cons, if_neg hv]

/-- Idempotence at the bulk level: running the same wellformed bulk again on
its own output is a no-op. -/
theorem applyOps_idem (pk : String) (s : List Doc) (ops : List UpdateOp)
    (hs : WfState pk s) (hops : ∀ op ∈ ops, WfOp pk op) :
    applyOps pk (applyOps pk s ops) ops = applyOps pk s ops := by
  have hs1 : WfState pk (applyOps pk s ops) := wfState_applyOps pk ops s hs hops
  have hpres : ∀ op ∈ ops, ∃ d ∈ applyOps pk s ops, dget d pk = some op.1 :=
    fun op hop => exists_match_applyOps pk ops s op hops hop
  rw [applyOps_eq_map pk ops _ hs1 hops hpres]
  apply list_map_eq_self
  intro d hd
  cases h : dget d pk with
  | none => rfl
  | some v =>
    simp only []
    exact applyOps_absorb pk ops s hs hops d hd v h

/-! ## The comprehension and counting helpers -/

/-- The primary-key values of the records of a batch, in order (records
missing the key contribute nothing). -/
def keyList (df : List Doc) (pk : String) : List Value :=
  df.filterMap (fun r => dget r pk)

/-- Number of stored documents whose primary-key field equals `v`. -/
def countKey (pk : String) (v : Value) (s : List Doc) : Nat :=
  (s.filter (fun d => decide (dget d pk = some v))).length

theorem buildOps_some_of_keys (df : List Doc) (pk : String)
    (h : ∀ r ∈ df, (dget r pk).isSome) : ∃ ops, buildOps df pk = some ops := by
  induction df with
  | nil => exact ⟨[], rfl⟩
  | cons r t ih =>
    obtain ⟨v, hv⟩ := Option.isSome_iff_exists.mp (h r (List.mem_cons_self _ _))
    obtain ⟨ops, hops⟩ := ih fun r' hr' => h r' (List.mem_cons_of_mem _ hr')
    exact ⟨(v, r) :: ops, by simp [buildOps, hv, hops]⟩

theorem buildOps_none_of_missing (df : List Doc) (pk : String)
    (h : ∃ r ∈ df, dget r pk = none) : buildOps df pk = none := by
  induction df with
  | nil => simp at h
  | cons r t ih =>
    obtain ⟨r', hr', hk⟩ := h
    rcases List.mem_cons.mp hr' with rfl | hr'
    · simp [buildOps, hk]
    · simp only [buildOps]
      cases hr : dget r pk with
      | none => rfl
      | some v => rw [ih ⟨r', hr', hk⟩]

theorem buildOps_mem (df : List Doc) (pk : String) :
    ∀ ops, buildOps df pk = some ops →
      ∀ op ∈ ops, op.2 ∈ df ∧ dget op.2 pk = some op.1 := by
  induction df with
  | nil =>
    intro ops h op hop
    simp only [buildOps, Option.some.injEq] at h
    subst h
    simp at hop
  | cons r t ih =>
    intro ops h op hop
    simp only [buildOps] at h
    cases hr : dget r pk with
    | none => rw [hr] at h; cases h
    | some v =>
      rw [hr] at h
      cases ht : buildOps t pk with
      | none => rw [ht] at h; cases h
      | some ops' =>
        rw [ht] at h
        simp only [Option.some.injEq] at h
        subst h
        rcases List.mem_cons.mp hop with rfl | hop
        · exact ⟨List.mem_cons_self _ _, hr⟩
        · obtain ⟨hm, hk⟩ := ih ops' ht op hop
          exact ⟨List.mem_cons_of_mem _ hm, hk⟩

/-- The operations a successful comprehension builds are wellformed whenever
the records are mappings. -/
theorem buildOps_wf (df : List Doc) (pk : String) (ops : List UpdateOp)
    (h : buildOps df pk = some ops) (hrec : ∀ r ∈ df, (dkeys r).Nodup) :
    ∀ op ∈ ops, WfOp pk op := by
  intro op hop
  obtain ⟨hm, hk⟩ := buildOps_mem df pk ops h op hop
  exact ⟨hrec op.2 hm, hk⟩

theorem mem_buildOps_of_mem (df : List Doc) (pk : String) :
    ∀ ops, buildOps df pk = some ops →
      ∀ r ∈ df, ∀ v, dget r pk = some v → (v, r) ∈ ops := by
  induction df with
  | nil => intro ops _ r hr; simp at hr
  | cons r₀ t ih =>
    intro ops h r hr v hv
    simp only [buildOps] at h
    cases hr₀ : dget r₀ pk with
    | none => rw [hr₀] at h; cases h
    | some v₀ =>
      rw [hr₀] at h
      cases ht : buildOps t pk with
      | none => rw [ht] at h; cases h
      | some ops' =>
        rw [ht] at h
        simp only [Option.some.injEq] at h
        subst h
        rcases List.mem_cons.mp hr with rfl | hr
        · rw [hr₀] at hv
          rcases Option.some.inj hv with rfl
          exact List.mem_cons_self _ _
        · exact List.mem_cons_of_mem _ (ih ops' ht r hr v hv)

theorem buildOps_map_fst (df : List Doc) (pk : String) :
    ∀ ops, buildOps df pk = some ops → ops.map Prod.fst = keyList df pk := by
  induction df with
  | nil =>
    intro ops h
    simp only [buildOps, Option.some.injEq] at h
    subst h
    rfl
  | cons r t ih =>
    intro ops h
    simp only [buildOps] at h
    cases hr : dget r pk with
    | none => rw [hr] at h; cases h
    | some v =>
      rw [hr] at h
      cases ht : buildOps t pk with
      | none => rw [ht] at h; cases h
      | some ops' =>
        rw [ht] at h
        simp only [Option.some.injEq] at h
        subst h
        rw [List.map_cons, ih ops' ht]
        simp [keyList, List.filterMap_cons, hr]

theorem buildOps_cons_ne_nil (r : Doc) (t : List Doc) (pk : String)
    (ops : List UpdateOp) (h : buildOps (r :: t) pk = some ops) : ops ≠ [] := by
  simp only [buildOps] at h
  cases hr : dget r pk with
  | none => rw [hr] at h; cases h
  | some v =>
    rw [hr] at h
    cases ht : buildOps t pk with
    | none => rw [ht] at h; cases h
    | some ops' =>
      rw [ht] at h
      simp only [Option.some.injEq] at h
      subst h
      simp

theorem countKey_cons (pk : String) (v : Value) (d : Doc) (t : List Doc) :
    countKey pk v (d :: t) =
      (if dget d pk = some v then 1 else 0) + countKey pk v t := by
  by_cases h : dget d pk = some v <;>
    simp [countKey, List.filter_cons, h, Nat.add_comm]

/-- Unique stored keys: at most one document per primary-key value. -/
theorem countKey_le_one (pk : String) (v : Value) :
    ∀ s : List Doc, s.Pairwise (KeyDistinct pk) → countKey pk v s ≤ 1 := by
  intro s
  induction s with
  | nil => intro _; simp [countKey]
  | cons d t ih =>
    intro hp
    rw [List.pairwise_cons] at hp
    rw [countKey_cons]
    by_cases h : dget d pk = some v
    · rw [if_pos h]
      have hz : countKey pk v t = 0 := by
        simp only [countKey, List.length_eq_zero, List.filter_eq_nil_iff]
        intro x hx
        simp only [decide_eq_true_eq]
        intro hc
        rcases hp.1 x hx with hk | hk
        · rw [h] at hk; cases hk
        · rw [h, hc] at hk; exact hk rfl
      rw [hz]
    · rw [if_neg h]
      simpa using ih hp.2

theorem countKey_pos (pk : String) (v : Value) (s : List Doc) (d : Doc)
    (hd : d ∈ s) (hk : dget d pk = some v) : 1 ≤ countKey pk v s := by
  induction s with
  | nil => simp at hd
  | cons d' t ih =>
    rw [countKey_cons]
    rcases List.mem_cons.mp hd with rfl | hd'
    · rw [if_pos hk]; omega
    · have := ih hd'
      omega

/-- Membership test of a document's primary-key value in a value list. -/
def inKeySet (pk : String) (V : List Value) (d : Doc) : Bool :=
  match dget d pk with
  | some v => decide (v ∈ V)
  | none => false

theorem filter_inKeySet_cons (pk : String) (v : Value) (V : List Value)
    (hv : v ∉ V) :
    ∀ s : List Doc, (s.filter (inKeySet pk (v :: V))).length =
      countKey pk v s + (s.filter (inKeySet pk V)).length := by
  intro s
  induction s with
  | nil => rfl
  | cons d t ih =>
    have hsplit : ∀ W : List Value,
        (List.filter (inKeySet pk W) (d :: t)).length =
          (if inKeySet pk W d then 1 else 0) +
            (List.filter (inKeySet pk W) t).length := by
      intro W
      rw [List.filter_cons]
      by_cases h : inKeySet pk W d
      · simp [h]
        omega
      · simp [h]
    rw [hsplit, hsplit, countKey_cons, ih]
    cases hk : dget d pk with
    | none =>
      simp [inKeySet, hk]
    | some u =>
      by_cases hu : u = v
      · subst hu
        simp only [inKeySet, hk]
        simp [hv]
        omega
      · by_cases hm : u ∈ V
        · simp only [inKeySet, hk]
          simp [hu, hm]
          omega
        · simp only [inKeySet, hk]
          simp [hu, hm]

/-- Counting stored documents over pairwise-distinct keys that each occur
exactly once. -/
theorem length_filter_keySet (pk : String) (V : List Value) :
    V.Nodup → ∀ s : List Doc, (∀ v ∈ V, countKey pk v s = 1) →
      (s.filter (inKeySet pk V)).length = V.length := by
  induction V with
  | nil =>
    intro _ s _
    have : s.filter (inKeySet pk []) = [] := by
      rw [List.filter_eq_nil_iff]
      intro d _
      simp [inKeySet]
      cases dget d pk <;> simp
    rw [this]
    rfl
  | cons v V ih =>
    intro hnd s h
    rw [List.nodup_cons] at hnd
    rw [filter_inKeySet_cons pk v V hnd.1 s, h v (List.mem_cons_self _ _),
      ih hnd.2 s fun u hu => h u (List.mem_cons_of_mem _ hu)]
    simp [Nat.add_comm]

/-! ## Equations for `upsertState` -/

theorem upsertState_of_buildOps_none (coll df : List Doc) (pk : String)
    (h : buildOps df pk = none) : upsertState coll df pk = coll := by
  simp [upsertState, upsertCore, h]

theorem upsertState_of_buildOps_nil (coll df : List Doc) (pk : String)
    (h : buildOps df pk = some []) : upsertState coll df pk = coll := by
  simp [upsertState, upsertCore, h]

theorem upsertState_of_ops (coll df : List Doc) (pk : String)
    (ops : List UpdateOp) (h : buildOps df pk = some ops) (hne : ops ≠ []) :
    upsertState coll df pk = applyOps pk coll ops := by
  cases ops with
  | nil => exact absurd rfl hne
  | cons op t =>
    simp only [upsertState, upsertCore, h]
    exact bulk_write_state pk coll (op :: t)

/-! ## The helper object, initialization, and store-level operations -/

/-- The pymongo client object.  Its constructor is lazy: it records the URI
and does not contact the server. -/
structure MongoClient where
  clientUri : String
deriving DecidableEq, Repr

/-- Errors `__init__` can raise: `ValueError` for a missing URI (line 33) and
`ConnectionError` when client construction fails (line 38; `MongoClient(uri)`
itself does not connect, so the model never produces the latter). -/
inductive InitError where
  | valueError
  | connectionError
deriving DecidableEq, Repr

/-- The mutable state of a `MongoDBHelper` instance: client, URI and the
lazily bound database and collection.  A bound collection remembers the
database it was created under, as a pymongo `Collection` object does. -/
structure MongoDBHelper where
  mongo_client : Option MongoClient
  uri : Option String
  _database : Option String
  _collection : Option (String × String)
deriving DecidableEq, Repr

/-- `MongoDBHelper._connect_to_mongodb` (lines 28-38): raise `ValueError` on
a missing URI, otherwise construct the client. -/
def _connect_to_mongodb (uri : Option String) : Except InitError MongoClient :=
  match uri with
  | none => .error .valueError
  | some u => .ok ⟨u⟩

/-- `MongoDBHelper.__init__` (lines 11-26): the fields start as `None`, then
`_connect_to_mongodb` runs; a raised error aborts construction, so no usable
helper (and no client) exists and nothing further executes. -/
def MongoDBHelper.init (uri : Option String) : Except InitError MongoDBHelper :=
  match _connect_to_mongodb uri with
  | .error e => .error e
  | .ok c => .ok ⟨some c, uri, none, none⟩

/-- The `database` property setter (lines 44-61): rebinds only when unset or
when the database name differs. -/
def setDatabase (h : MongoDBHelper) (database_name : String) : MongoDBHelper :=
  match h._database with
  | none => { h with _database := some database_name }
  | some n =>
    if database_name ≠ n then { h with _database := some database_name } else h

/-- The `collection` property setter (lines 67-84): rebinds only when unset
or when the collection name differs — it never compares the database, so a
binding made under an earlier database survives a database switch.  The new
binding is created under the currently bound database.  With no bound
database the source would raise a `TypeError` (`self.database[...]` on
`None`); no operation of the repository reaches that state, and the model
leaves the helper unchanged there. -/
def setCollection (h : MongoDBHelper) (collection_name : String) : MongoDBHelper :=
  match h._collection with
  | none =>
    match h._database with
    | some dbn => { h with _collection := some (dbn, collection_name) }
    | none => h
  | some (_, n) =>
    if n ≠ collection_name then
      match h._database with
      | some dbn => { h with _collection := some (dbn, collection_name) }
      | none => h
    else h

/-- The stored collections of one database: collection name → documents. -/
abbrev Database := List (String × List Doc)

/-- The state of the MongoDB server: database name → database.  Databases and
collections are created implicitly on first write. -/
abbrev World := List (String × Database)

/-- `MongoDBHelper.get_database_list` (lines 86-95). -/
def get_database_list (w : World) : List String :=
  w.map Prod.fst

/-- Replace or create an entry of an association list (the store creates
databases and collections implicitly on first write). -/
def assocSet {β : Type} : List (String × β) → String → β → List (String × β)
  | [], k, b => [(k, b)]
  | (k', b') :: t, k, b =>
    if k' = k then (k, b) :: t else (k', b') :: assocSet t k b

/-- The stored documents of `dbn.cln` (empty when absent). -/
def getColl (w : World) (dbn cln : String) : List Doc :=
  match List.lookup dbn w with
  | none => []
  | some db =>
    match List.lookup cln db with
    | none => []
    | some docs => docs

/-- Store the documents of `dbn.cln`, creating database and collection as
needed. -/
def setColl (w : World) (dbn cln : String) (docs : List Doc) : World :=
  assocSet w dbn (assocSet ((List.lookup dbn w).getD []) cln docs)

/-- The status line a deletion helper prints. -/
inductive DeleteReport where
  | deleted
  | failed
  | missing
deriving DecidableEq, Repr

/-- `MongoDBHelper.delete_database` (lines 97-119): drop only when the
database exists, verify, and report; a missing database is only reported
("This database doesn't exist"), never raised. -/
def delete_database (w : World) (database_name : String) :
    World × DeleteReport :=
  if database_name ∈ get_database_list w then
    let w' := w.filter (fun p => decide (p.1 ≠ database_name))
    if database_name ∉ get_database_list w' then (w', .deleted)
    else (w', .failed)
  else (w, .missing)

/-- pymongo `Database.drop_collection`: returns the command response instead
of raising; for a missing database or collection MongoDB answers
`ok: 0` (`ns not found`). -/
def drop_collection (w : World) (dbn cln : String) : World × Bool :=
  match List.lookup dbn w with
  | none => (w, false)
  | some db =>
    if cln ∈ db.map Prod.fst then
      (assocSet w dbn (db.filter (fun p => decide (p.1 ≠ cln))), true)
    else (w, false)

/-- `MongoDBHelper.delete_collection` (lines 138-159): bind database and
collection, call `drop_collection` on the bound database, and report
"Deleted" on `ok == 1`, otherwise "Cannot delete collection" — no
exception either way. -/
def delete_collection (w : World) (h : MongoDBHelper)
    (database_name collection_name : String) :
    World × MongoDBHelper × DeleteReport :=
  let h₂ := setCollection (setDatabase h database_name) collection_name
  let wr := drop_collection w database_name collection_name
  (wr.1, h₂, if wr.2 then .deleted else .failed)

/-- `upsert_df` including the lazy binding of lines 309-310: the write goes
to the collection object bound in the helper which — because the collection
setter compares names only — may live under a previously bound database.
The `none` branch mirrors the `TypeError` the source would raise without a
bound database; it is unreachable from an initialized helper. -/
def upsert_dfW (w : World) (h : MongoDBHelper) (df : List Doc)
    (database_name collection_name primary_key_column : String) :
    MongoDBHelper × Except PyError World :=
  let h' := setCollection (setDatabase h database_name) collection_name
  match h'._collection with
  | none => (h', .error .invalidOperation)
  | some (tdb, tcl) =>
    match upsertCore (getColl w tdb tcl) df primary_key_column with
    | .error e => (h', .error e)
    | .ok res => (h', .ok (setColl w tdb tcl res.1))

theorem setDatabase_database (h : MongoDBHelper) (dbn : String) :
    (setDatabase h dbn)._database = some dbn := by
  unfold setDatabase
  cases hd : h._database with
  | none => rfl
  | some n =>
    by_cases hn : dbn = n
    · subst hn
      simp [hd]
    · simp [hn]

theorem setDatabase_collection (h : MongoDBHelper) (dbn : String) :
    (setDatabase h dbn)._collection = h._collection := by
  unfold setDatabase
  cases hd : h._database with
  | none => rfl
  | some n =>
    by_cases hn : dbn = n
    · subst hn
      simp
    · simp [hn]

theorem setCollection_of_none (h : MongoDBHelper) (cln dbn : String)
    (hc : h._collection = none) (hd : h._database = some dbn) :
    (setCollection h cln)._collection = some (dbn, cln) := by
  unfold setCollection
  rw [hc, hd]

theorem setCollection_same_name (h : MongoDBHelper) (d₀ cln : String)
    (hc : h._collection = some (d₀, cln)) :
    (setCollection h cln)._collection = some (d₀, cln) := by
  unfold setCollection
  rw [hc]
  simpa using hc

theorem lookup_assocSet_self {β : Type} (l : List (String × β)) (k : String)
    (b : β) : List.lookup k (assocSet l k b) = some b := by
  induction l with
  | nil => simp [assocSet, List.lookup]
  | cons p t ih =>
    obtain ⟨k', b'⟩ := p
    by_cases hk : k' = k
    · subst hk
      simp [assocSet, List.lookup]
    · have : (k == k') = false := by
        simp only [beq_eq_false_iff_ne, ne_eq]
        intro hc
        exact hk hc.symm
      simp [assocSet, hk, List.lookup, this, ih]

theorem lookup_assocSet_other {β : Type} (l : List (String × β))
    (k k' : String) (b : β) (hne : k' ≠ k) :
    List.lookup k' (assocSet l k b) = List.lookup k' l := by
  have hbk : (k' == k) = false := by
    simp only [beq_eq_false_iff_ne, ne_eq]
    exact hne
  induction l with
  | nil =>
    simp [assocSet, List.lookup, hbk]
  | cons p t ih =>
    obtain ⟨k₀, b₀⟩ := p
    by_cases hk : k₀ = k
    · subst hk
      simp [assocSet, List.lookup, hbk]
    · by_cases hk' : k' = k₀
      · subst hk'
        simp [assocSet, hk, List.lookup]
      · have hbk₀ : (k' == k₀) = false := by
          simp only [beq_eq_false_iff_ne, ne_eq]
          exact hk'
        simp [assocSet, hk, List.lookup, hbk₀, ih]

theorem getColl_setColl_self (w : World) (dbn cln : String) (docs : List Doc) :
    getColl (setColl w dbn cln docs) dbn cln = docs := by
  unfold getColl setColl
  rw [lookup_assocSet_self]
  dsimp only
  rw [lookup_assocSet_self]

theorem getColl_setColl_other_db (w : World) (dbn cln dbn' cln' : String)
    (docs : List Doc) (hne : dbn' ≠ dbn) :
    getColl (setColl w dbn cln docs) dbn' cln' = getColl w dbn' cln' := by
  unfold getColl setColl
  rw [lookup_assocSet_other _ _ _ _ hne]

/-! ## Claim theorems -/

/-- C1 (counterexample): the claim "no fields beyond the Batch record's
fields merged in from a previously stored document with the same key" fails.
With one stored document `{k: 1, w: "old"}` and the batch record
`{k: 1, v: "b"}`, `upsert_df` uses `$set`, which merges: the resulting stored
document still carries the field `w`, which the batch record does not
have. -/
theorem upsert_df_extra_field_counterexample :
    upsertState [[("k", Value.int 1), ("w", Value.str "old")]]
        [[("k", Value.int 1), ("v", Value.str "b")]] "k" =
      [[("k", Value.int 1), ("w", Value.str "old"), ("v", Value.str "b")]] ∧
    dget [("k", Value.int 1), ("w", Value.str "old"), ("v", Value.str "b")] "w" =
      some (Value.str "old") ∧
    dget [("k", Value.int 1), ("v", Value.str "b")] "w" = none := by
  refine ⟨?_, rfl, rfl⟩
  rfl

/-- C1 (amended): after `upsert_df`, for each record of the batch there is
exactly one stored document carrying the record's primary-key value, and
every field of the record appears in that document with the record's value;
fields of a previously stored document that the record does not set survive
(`$set` merges rather than replaces).  Hypotheses from the spec's data
model: stored documents and records are mappings, stored primary keys are
unique, the key column is present in every record, and the batch's key
values are pairwise distinct. -/
theorem upsert_df_per_record (coll df : List Doc) (pk : String)
    (hs : WfState pk coll)
    (hrec : ∀ r ∈ df, (dkeys r).Nodup)
    (hpk : ∀ r ∈ df, (dget r pk).isSome)
    (hkeys : (keyList df pk).Nodup) :
    ∀ r ∈ df, ∀ v, dget r pk = some v →
      countKey pk v (upsertState coll df pk) = 1 ∧
      ∀ d ∈ upsertState coll df pk, dget d pk = some v →
        ∀ f u, dget r f = some u → dget d f = some u := by
  intro r hr v hv
  obtain ⟨ops, hops⟩ := buildOps_some_of_keys df pk hpk
  cases df with
  | nil => simp at hr
  | cons r₀ t =>
    have hne : ops ≠ [] := buildOps_cons_ne_nil r₀ t pk ops hops
    rw [upsertState_of_ops coll _ pk ops hops hne]
    have hwf : ∀ op ∈ ops, WfOp pk op := buildOps_wf _ pk ops hops hrec
    have hmem : (v, r) ∈ ops := mem_buildOps_of_mem _ pk ops hops r hr v hv
    have hs1 : WfState pk (applyOps pk coll ops) :=
      wfState_applyOps pk ops coll hs hwf
    constructor
    · have hge : 1 ≤ countKey pk v (applyOps pk coll ops) := by
        obtain ⟨d, hd, hk⟩ := exists_match_applyOps pk ops coll (v, r) hwf hmem
        exact countKey_pos pk v _ d hd hk
      have hle := countKey_le_one pk v _ hs1.2
      omega
    · intro d hd hkd f u hf
      have habs := applyOps_absorb pk ops coll hs hwf d hd v hkd
      have hpend : pendingAll v ops = r := by
        refine pendingAll_eq_single v r ops ?_ hmem
        rw [buildOps_map_fst _ pk ops hops]
        exact hkeys
      rw [hpend] at habs
      rw [← habs, dget_dsetMany, lastVal_eq_dget r (hrec r hr), hf]

/-- Witness for the amended C1 theorem at a concrete input. -/
theorem upsert_df_per_record_witness :
    countKey "k" (Value.int 1)
      (upsertState [] [[("k", Value.int 1), ("v", Value.str "a")]] "k") = 1 :=
  (upsert_df_per_record [] [[("k", Value.int 1), ("v", Value.str "a")]] "k"
    (by decide) (by decide) (by decide) (by decide)
    [("k", Value.int 1), ("v", Value.str "a")] (by decide)
    (Value.int 1) (by decide)).1

/-- C2: if the key column is absent from some record, `upsert_df` raises
`KeyError` while building the operations — before `bulk_write` is reached —
and the stored collection is unchanged. -/
theorem upsert_df_missing_key (coll df : List Doc)
    (database_name collection_name pk : String)
    (h : ∃ r ∈ df, dget r pk = none) :
    upsert_df coll df database_name collection_name pk =
      .error .keyError ∧
    upsertState coll df pk = coll := by
  have hb := buildOps_none_of_missing df pk h
  constructor
  · simp [upsert_df, upsertCore, hb]
  · simp [upsertState, upsertCore, hb]

/-- Witness for C2 at a concrete input. -/
theorem upsert_df_missing_key_witness :
    upsert_df [] [[("x", Value.int 1)]] "db" "cl" "k" =
      .error .keyError ∧
    upsertState [] [[("x", Value.int 1)]] "k" = [] :=
  upsert_df_missing_key [] [[("x", Value.int 1)]] "db" "cl" "k"
    ⟨[("x", Value.int 1)], by decide, by decide⟩

/-- C6: the spec's worked example.  Upserting `[{k:1,v:"a"},{k:2,v:"b"}]`
into an empty collection reports matched=0, modified=0, upserted=2; re-running
with `[{k:1,v:"c"},{k:2,v:"b"}]` reports matched=2, modified=1 (only the
record with key 1 changes), upserted=0. -/
theorem upsert_df_example :
    upsert_df []
        [[("k", Value.int 1), ("v", Value.str "a")],
         [("k", Value.int 2), ("v", Value.str "b")]] "db" "cl" "k" =
      .ok ⟨[[("k", Value.int 1), ("v", Value.str "a")],
            [("k", Value.int 2), ("v", Value.str "b")]],
        some ("db", "cl", ⟨0, 0, 2⟩), none⟩ ∧
    upsert_df
        [[("k", Value.int 1), ("v", Value.str "a")],
         [("k", Value.int 2), ("v", Value.str "b")]]
        [[("k", Value.int 1), ("v", Value.str "c")],
         [("k", Value.int 2), ("v", Value.str "b")]] "db" "cl" "k" =
      .ok ⟨[[("k", Value.int 1), ("v", Value.str "c")],
            [("k", Value.int 2), ("v", Value.str "b")]],
        some ("db", "cl", ⟨2, 1, 0⟩), none⟩ :=
  ⟨rfl, rfl⟩

/-- C7: constructing the helper with `uri=None` raises `ValueError` during
initialization: no client is created, no helper object becomes usable, and
no subsequent operation runs. -/
theorem init_missing_uri :
    MongoDBHelper.init none = .error .valueError := rfl

/-- C10: an empty batch produces an empty operation list, which pymongo's
`bulk_write` rejects with `InvalidOperation` instead of completing as a
no-op; the stored collection is unchanged. -/
theorem upsert_df_empty_batch (coll : List Doc)
    (database_name collection_name pk : String) :
    upsert_df coll [] database_name collection_name pk =
      .error .invalidOperation ∧
    upsertState coll [] pk = coll :=
  ⟨rfl, rfl⟩

/-- C3 (counterexample): the claim "surfaces the counts ... to the caller as
its result" fails.  On a successful concrete run the counts (matched=0,
modified=0, upserted=2) appear only in the printed status line; the value
returned to the caller is `None` (the method body has no `return`
statement). -/
theorem upsert_df_returns_none_counterexample :
    upsert_df []
        [[("k", Value.int 1), ("v", Value.str "a")],
         [("k", Value.int 2), ("v", Value.str "b")]] "db" "cl" "k" =
      .ok ⟨[[("k", Value.int 1), ("v", Value.str "a")],
            [("k", Value.int 2), ("v", Value.str "b")]],
        some ("db", "cl", ⟨0, 0, 2⟩), none⟩ ∧
    (⟨[[("k", Value.int 1), ("v", Value.str "a")],
       [("k", Value.int 2), ("v", Value.str "b")]],
      some ("db", "cl", ⟨0, 0, 2⟩), none⟩ : UpsertOutcome).ret = none :=
  ⟨rfl, rfl⟩

/-- C3 (amended): on every successful run, `upsert_df` reports the
`bulk_write` counts of matched, modified and upserted records in a printed
status line; its return value is `None`, so the counts are not surfaced as
the method's result. -/
theorem upsert_df_prints_counts (coll df : List Doc)
    (database_name collection_name pk : String) (out : UpsertOutcome)
    (h : upsert_df coll df database_name collection_name pk = .ok out) :
    out.ret = none ∧
    ∃ ops, buildOps df pk = some ops ∧
      out.printed =
        some (database_name, collection_name, (bulk_write pk coll ops).2) := by
  unfold upsert_df at h
  cases hc : upsertCore coll df pk with
  | error e => rw [hc] at h; cases h
  | ok res =>
    rw [hc] at h
    have hout : out = ⟨res.1, some (database_name, collection_name, res.2), none⟩ :=
      (Except.ok.inj h).symm
    subst hout
    refine ⟨rfl, ?_⟩
    unfold upsertCore at hc
    cases hb : buildOps df pk with
    | none => rw [hb] at hc; cases hc
    | some ops =>
      rw [hb] at hc
      cases ops with
      | nil => simp at hc
      | cons op t =>
        have hres : res = bulk_write pk coll (op :: t) := (Except.ok.inj hc).symm
        exact ⟨op :: t, rfl, by rw [hres]⟩

/-- Witness for the amended C3 theorem at a concrete input. -/
theorem upsert_df_prints_counts_witness :
    (⟨[[("k", Value.int 1)]],
      some ("db", "cl", ⟨0, 0, 1⟩), none⟩ : UpsertOutcome).ret = none ∧
    ∃ ops, buildOps [[("k", Value.int 1)]] "k" = some ops ∧
      (⟨[[("k", Value.int 1)]],
        some ("db", "cl", ⟨0, 0, 1⟩), none⟩ : UpsertOutcome).printed =
        some ("db", "cl", (bulk_write "k" [] ops).2) :=
  upsert_df_prints_counts [] [[("k", Value.int 1)]] "db" "cl" "k"
    ⟨[[("k", Value.int 1)]], some ("db", "cl", ⟨0, 0, 1⟩), none⟩ rfl

/-- C4: idempotence of Upsert-Sync.  Running `upsert_df` twice with the same
batch and key column leaves the stored state of the second run identical to
the state after the first run.  Hypotheses from the spec's data model:
the initial stored collection consists of mappings with unique primary keys,
records are mappings, and the key column is present in every record. -/
theorem upsert_df_idempotent (coll df : List Doc) (pk : String)
    (hs : WfState pk coll)
    (hrec : ∀ r ∈ df, (dkeys r).Nodup)
    (hpk : ∀ r ∈ df, (dget r pk).isSome) :
    upsertState (upsertState coll df pk) df pk = upsertState coll df pk := by
  obtain ⟨ops, hops⟩ := buildOps_some_of_keys df pk hpk
  cases df with
  | nil =>
    rw [upsertState_of_buildOps_nil coll [] pk rfl]
    exact upsertState_of_buildOps_nil coll [] pk rfl
  | cons r₀ t =>
    have hne : ops ≠ [] := buildOps_cons_ne_nil r₀ t pk ops hops
    have hwf : ∀ op ∈ ops, WfOp pk op := buildOps_wf _ pk ops hops hrec
    rw [upsertState_of_ops coll _ pk ops hops hne,
      upsertState_of_ops _ _ pk ops hops hne]
    exact applyOps_idem pk coll ops hs hwf

/-- Witness for C4 at a concrete input. -/
theorem upsert_df_idempotent_witness :
    upsertState
        (upsertState [] [[("k", Value.int 1), ("v", Value.str "a")]] "k")
        [[("k", Value.int 1), ("v", Value.str "a")]] "k" =
      upsertState [] [[("k", Value.int 1), ("v", Value.str "a")]] "k" :=
  upsert_df_idempotent [] [[("k", Value.int 1), ("v", Value.str "a")]] "k"
    (by decide) (by decide) (by decide)

/-- C5: after `upsert_df`, the number of stored documents whose key-column
value lies in the batch's key set equals the number of distinct key values in
the batch — duplicate keys within a batch collapse to one stored document.
Hypotheses from the spec's data model: the initial stored collection
consists of mappings with unique primary keys, records are mappings, and the
key column is present in every record. -/
theorem upsert_df_distinct_key_count (coll df : List Doc) (pk : String)
    (hs : WfState pk coll)
    (hrec : ∀ r ∈ df, (dkeys r).Nodup)
    (hpk : ∀ r ∈ df, (dget r pk).isSome) :
    ((upsertState coll df pk).filter (inKeySet pk (keyList df pk))).length =
      (keyList df pk).dedup.length := by
  obtain ⟨ops, hops⟩ := buildOps_some_of_keys df pk hpk
  cases df with
  | nil =>
    rw [upsertState_of_buildOps_nil coll [] pk rfl]
    have hempty : coll.filter (inKeySet pk (keyList [] pk)) = [] := by
      rw [List.filter_eq_nil_iff]
      intro d _
      simp only [inKeySet, keyList, List.filterMap_nil]
      cases dget d pk <;> simp
    rw [hempty]
    rfl
  | cons r₀ t =>
    have hne : ops ≠ [] := buildOps_cons_ne_nil r₀ t pk ops hops
    have hwf : ∀ op ∈ ops, WfOp pk op := buildOps_wf _ pk ops hops hrec
    have hs1 : WfState pk (applyOps pk coll ops) :=
      wfState_applyOps pk ops coll hs hwf
    rw [upsertState_of_ops coll _ pk ops hops hne]
    have hfe : (applyOps pk coll ops).filter
        (inKeySet pk (keyList (r₀ :: t) pk)) =
        (applyOps pk coll ops).filter
          (inKeySet pk (keyList (r₀ :: t) pk).dedup) := by
      refine List.filter_congr ?_
      intro d _
      unfold inKeySet
      cases dget d pk with
      | none => rfl
      | some v => simp [List.mem_dedup]
    rw [hfe]
    refine length_filter_keySet pk _ (List.nodup_dedup _) _ ?_
    intro v hv
    rw [List.mem_dedup] at hv
    obtain ⟨r, hr, hrv⟩ := List.mem_filterMap.mp hv
    have hmem : (v, r) ∈ ops := mem_buildOps_of_mem _ pk ops hops r hr v hrv
    have hge : 1 ≤ countKey pk v (applyOps pk coll ops) := by
      obtain ⟨d, hd, hk⟩ := exists_match_applyOps pk ops coll (v, r) hwf hmem
      exact countKey_pos pk v _ d hd hk
    have hle := countKey_le_one pk v _ hs1.2
    omega

/-- Witness for C5 at a concrete input with a duplicated key in the batch. -/
theorem upsert_df_distinct_key_count_witness :
    ((upsertState []
        [[("k", Value.int 1), ("v", Value.str "a")],
         [("k", Value.int 1), ("v", Value.str "b")]] "k").filter
      (inKeySet "k"
        (keyList
          [[("k", Value.int 1), ("v", Value.str "a")],
           [("k", Value.int 1), ("v", Value.str "b")]] "k"))).length =
      (keyList
        [[("k", Value.int 1), ("v", Value.str "a")],
         [("k", Value.int 1), ("v", Value.str "b")]] "k").dedup.length :=
  upsert_df_distinct_key_count []
    [[("k", Value.int 1), ("v", Value.str "a")],
     [("k", Value.int 1), ("v", Value.str "b")]] "k"
    (by decide) (by decide) (by decide)

/-- C8: deleting a database that does not exist and dropping a collection
that does not exist each complete with a printed report instead of raising,
and leave the stored databases and collections unchanged. -/
theorem delete_missing_noop (w : World) (h : MongoDBHelper)
    (database_name collection_name : String) :
    (database_name ∉ get_database_list w →
      delete_database w database_name = (w, .missing)) ∧
    ((∀ db, List.lookup database_name w = some db →
        collection_name ∉ db.map Prod.fst) →
      (delete_collection w h database_name collection_name).1 = w ∧
      (delete_collection w h database_name collection_name).2.2 = .failed) := by
  constructor
  · intro hmiss
    simp [delete_database, hmiss]
  · intro hmiss
    unfold delete_collection drop_collection
    cases hdb : List.lookup database_name w with
    | none => exact ⟨rfl, rfl⟩
    | some db =>
      have hcm := hmiss db hdb
      simp only [hcm]
      exact ⟨rfl, rfl⟩

/-- Witness for C8 at a concrete input. -/
theorem delete_missing_noop_witness :
    delete_database [] "db" = ([], .missing) ∧
    (delete_collection [] ⟨some ⟨"u"⟩, some "u", none, none⟩ "db" "cl").1 = [] ∧
    (delete_collection [] ⟨some ⟨"u"⟩, some "u", none, none⟩ "db" "cl").2.2 =
      .failed := by
  have hmain :=
    delete_missing_noop [] ⟨some ⟨"u"⟩, some "u", none, none⟩ "db" "cl"
  refine ⟨hmain.1 (by decide), ?_, ?_⟩
  · exact (hmain.2 (fun db hdb => by simp [List.lookup] at hdb)).1
  · exact (hmain.2 (fun db hdb => by simp [List.lookup] at hdb)).2

/-- C9: the collection setter rebinds only when the collection name differs
and never compares the database.  After an operation binds `db₁.c`, a second
`upsert_df` call naming a different database `db₂` but the same collection
name `c` still writes through the old binding: the helper's collection stays
bound to `db₁.c`, the collection `db₂.c` is untouched, and the write is
applied to the stored documents of `db₁.c`. -/
theorem collection_binding_stale (w : World) (h₀ : MongoDBHelper)
    (df₁ df₂ : List Doc) (db₁ db₂ c pk : String)
    (hc : h₀._collection = none) (hdb : db₁ ≠ db₂)
    (h₁ : MongoDBHelper) (w₁ : World)
    (hrun₁ : upsert_dfW w h₀ df₁ db₁ c pk = (h₁, .ok w₁)) :
    (upsert_dfW w₁ h₁ df₂ db₂ c pk).1._collection = some (db₁, c) ∧
    ∀ w₂, (upsert_dfW w₁ h₁ df₂ db₂ c pk).2 = .ok w₂ →
      getColl w₂ db₂ c = getColl w₁ db₂ c ∧
      ∃ res, upsertCore (getColl w₁ db₁ c) df₂ pk =
        .ok (getColl w₂ db₁ c, res) := by
  have hbind₁ : (setCollection (setDatabase h₀ db₁) c)._collection =
      some (db₁, c) :=
    setCollection_of_none (setDatabase h₀ db₁) c db₁
      (by rw [setDatabase_collection]; exact hc)
      (setDatabase_database h₀ db₁)
  have hh₁ : h₁ = setCollection (setDatabase h₀ db₁) c := by
    unfold upsert_dfW at hrun₁
    dsimp only at hrun₁
    rw [hbind₁] at hrun₁
    dsimp only at hrun₁
    cases hcore : upsertCore (getColl w db₁ c) df₁ pk with
    | error e =>
      rw [hcore] at hrun₁
      cases (Prod.mk.injEq .. ▸ hrun₁).2
    | ok res =>
      rw [hcore] at hrun₁
      exact ((Prod.mk.injEq .. ▸ hrun₁).1).symm
  have hbind₂ : (setCollection (setDatabase h₁ db₂) c)._collection =
      some (db₁, c) := by
    refine setCollection_same_name (setDatabase h₁ db₂) db₁ c ?_
    rw [setDatabase_collection, hh₁, hbind₁]
  constructor
  · unfold upsert_dfW
    dsimp only
    rw [hbind₂]
    dsimp only
    cases hcore : upsertCore (getColl w₁ db₁ c) df₂ pk with
    | error e => exact hbind₂
    | ok res => exact hbind₂
  · intro w₂ hw₂
    unfold upsert_dfW at hw₂
    dsimp only at hw₂
    rw [hbind₂] at hw₂
    dsimp only at hw₂
    cases hcore : upsertCore (getColl w₁ db₁ c) df₂ pk with
    | error e =>
      rw [hcore] at hw₂
      cases hw₂
    | ok res =>
      rw [hcore] at hw₂
      have hw₂' : w₂ = setColl w₁ db₁ c res.1 := (Except.ok.inj hw₂).symm
      subst hw₂'
      refine ⟨getColl_setColl_other_db w₁ db₁ c db₂ c res.1
        (fun hcon => hdb hcon.symm), res.2, ?_⟩
      rw [getColl_setColl_self]

/-- Witness for C9 at a concrete input. -/
theorem collection_binding_stale_witness :
    (upsert_dfW [("a", [("c", [[("k", Value.int 1)]])])]
        ⟨some ⟨"u"⟩, some "u", some "a", some ("a", "c")⟩
        [[("k", Value.int 2)]] "b" "c" "k").1._collection = some ("a", "c") :=
  (collection_binding_stale [] ⟨some ⟨"u"⟩, some "u", none, none⟩
    [[("k", Value.int 1)]] [[("k", Value.int 2)]] "a" "b" "c" "k"
    rfl (by decide)
    ⟨some ⟨"u"⟩, some "u", some "a", some ("a", "c")⟩
    [("a", [("c", [[("k", Value.int 1)]])])] rfl).1

end PandasMongo
